import Mathlib

/-!
Verification of the view-intelligence core of the researchdb repository:
the view catalog (src/catalog/view_catalog.py), the schema graph
(src/graph/schema_graph.py), the Steiner-tree solver
(src/graph/steiner_tree.py) and the cosine similarity of the semantic
search index (src/catalog/semantic_search.py).

Modelling conventions:
* The SQLite-backed catalog table is modelled as a list of records in
  rowid (insertion) order; SQL `UPDATE ... WHERE view_name = ?` is a map
  over the list, `SELECT ... WHERE` is a filter, and `ORDER BY` is a
  stable sort over the scan order.
* Timestamps are abstract `Nat` ticks supplied by the caller.
* Python floats in graph weights and costs are idealised as exact
  rationals (`ℚ`).  The cosine similarity's numpy arithmetic is instead
  modelled bit-faithfully: `rnd53` rounds a rational to IEEE-754
  binary64 (round-to-nearest-even, 53-bit significand, unbounded
  exponent, hence exact in the absence of overflow and underflow), and
  dot product, norm and division are the correctly rounded operations
  the hardware performs.
* Exceptions are modelled with `Except`; functions that cannot raise are
  total.
-/

/-- Lifecycle states of a view record (catalog/models.py, allowed_statuses). -/
inductive ViewStatus where
  | DRAFT
  | PROMOTED
  | MATERIALIZED
  | STALE
  | ARCHIVED
deriving DecidableEq, Repr

/-- A row of the `view_catalog` table (catalog/models.py, ViewMetadata).
Fields not consulted by any claim (freshness, governance, session
context) are omitted; `last_validated` is kept because registration
stamps it. -/
structure ViewRec where
  view_name : String
  layer : Nat
  domain : String
  description : Option String := none
  tags : List String := []
  base_tables : List String := []
  status : ViewStatus := ViewStatus.DRAFT
  usage_count : Nat := 0
  created_date : Option Nat := none
  promoted_date : Option Nat := none
  last_used : Option Nat := none
  last_validated : Option Nat := none
  view_definition : String := ""
deriving DecidableEq, Repr

/-- The catalog state: rows of `view_catalog` in rowid order. -/
abbrev Catalog := List ViewRec

/-- `SELECT * FROM view_catalog WHERE view_name = ?` returning the first
row (ViewCatalog.find_by_name). -/
def find_by_name (c : Catalog) (name : String) : Option ViewRec :=
  c.find? (fun r => r.view_name = name)

/-- ViewCatalog.register_view: raises if the name exists, otherwise
stamps missing timestamps and inserts.  The pre-state is returned
unchanged alongside the raised error. -/
def register_view (c : Catalog) (v : ViewRec) (now : Nat) : Catalog × Except String ViewRec :=
  match find_by_name c v.view_name with
  | some _ => (c, Except.error ("View already exists: " ++ v.view_name))
  | none =>
      let v' := { v with
        created_date := some (v.created_date.getD now),
        last_validated := some (v.last_validated.getD now) }
      (c ++ [v'], Except.ok v')

/-- ViewCatalog.promote_view: `UPDATE ... SET status = PROMOTED,
promoted_date = now WHERE view_name = ? AND status = 'DRAFT'`; the Bool
is `rows_affected > 0`. -/
def promote_view (c : Catalog) (name : String) (now : Nat) : Catalog × Bool :=
  (c.map (fun r =>
      if r.view_name = name ∧ r.status = ViewStatus.DRAFT then
        { r with status := ViewStatus.PROMOTED, promoted_date := some now }
      else r),
   c.any (fun r => r.view_name = name ∧ r.status = ViewStatus.DRAFT))

/-- ViewCatalog.increment_usage: bump `usage_count` and `last_used`,
then re-read the row and auto-promote when the new count reaches 3 on a
DRAFT view. -/
def increment_usage (c : Catalog) (name : String) (now : Nat) : Catalog × Bool :=
  let c1 := c.map (fun r =>
    if r.view_name = name then
      { r with usage_count := r.usage_count + 1, last_used := some now }
    else r)
  if c.any (fun r => r.view_name = name) then
    match find_by_name c1 name with
    | some v =>
        if 3 ≤ v.usage_count ∧ v.status = ViewStatus.DRAFT then
          ((promote_view c1 name now).1, true)
        else (c1, true)
    | none => (c1, true)
  else (c1, false)

/-- The column/value pairs handed to ViewCatalog.update_view.  The
source accepts an arbitrary dict of columns; the columns exercised by
the spec's claims are modelled. -/
structure FieldUpdates where
  status : Option ViewStatus := none
  description : Option String := none
  domain : Option String := none
deriving DecidableEq, Repr

/-- Whether the updates dict is empty (`if not updates: return False`). -/
def FieldUpdates.isEmpty (u : FieldUpdates) : Bool :=
  u.status.isNone && u.description.isNone && u.domain.isNone

/-- Apply `SET column = value` for every present column to one row. -/
def apply_updates (u : FieldUpdates) (r : ViewRec) : ViewRec :=
  { r with
    status := u.status.getD r.status,
    description := (u.description.map some).getD r.description,
    domain := u.domain.getD r.domain }

/-- ViewCatalog.update_view: partial update of all rows matching the
name; the Bool is `rows_affected > 0`. -/
def update_view (c : Catalog) (name : String) (u : FieldUpdates) : Catalog × Bool :=
  if u.isEmpty then (c, false)
  else
    (c.map (fun r => if r.view_name = name then apply_updates u r else r),
     c.any (fun r => r.view_name = name))

/-- ViewCatalog.delete_view: soft delete via `update_view` setting
status to ARCHIVED. -/
def delete_view (c : Catalog) (name : String) : Catalog × Bool :=
  update_view c name { status := some ViewStatus.ARCHIVED }

/-- Stable insertion of `x` into a list already sorted by `le`
(descending keys): `x` is placed before the first element it is not
`le`-after, so equal keys keep their scan order.  This models SQLite's
`ORDER BY` over the table-scan order. -/
def ins_sorted (le : ViewRec → ViewRec → Bool) (x : ViewRec) : List ViewRec → List ViewRec
  | [] => [x]
  | y :: ys => if le x y then x :: y :: ys else y :: ins_sorted le x ys

/-- Stable sort by `le` (insertion sort; models `ORDER BY`). -/
def sort_by (le : ViewRec → ViewRec → Bool) : List ViewRec → List ViewRec
  | [] => []
  | x :: xs => ins_sorted le x (sort_by le xs)

/-- Sort key of find_by_domain: `ORDER BY usage_count DESC` (no
secondary key in the SQL). -/
def usage_desc (a b : ViewRec) : Bool :=
  b.usage_count ≤ a.usage_count

/-- Sort key of get_all_views: `ORDER BY usage_count DESC, created_date
DESC` (NULL created dates sort last on the descending key). -/
def usage_created_desc (a b : ViewRec) : Bool :=
  if a.usage_count = b.usage_count then
    match a.created_date, b.created_date with
    | some x, some y => y ≤ x
    | some _, none => true
    | none, some _ => false
    | none, none => true
  else b.usage_count ≤ a.usage_count

/-- ViewCatalog.find_by_domain: `WHERE domain = ?` (and layer when
given) `ORDER BY usage_count DESC`. -/
def find_by_domain (c : Catalog) (domain : String) (layer : Option Nat := none) : List ViewRec :=
  match layer with
  | some l => sort_by usage_desc (c.filter (fun r => r.domain = domain ∧ r.layer = l))
  | none => sort_by usage_desc (c.filter (fun r => r.domain = domain))

/-- ViewCatalog.get_all_views: optional layer/status filters,
`ORDER BY usage_count DESC, created_date DESC`. -/
def get_all_views (c : Catalog) (layer : Option Nat := none) (status : Option ViewStatus := none) : List ViewRec :=
  sort_by usage_created_desc
    (c.filter (fun r =>
      (match layer with | some l => decide (r.layer = l) | none => true) &&
      (match status with | some s => decide (r.status = s) | none => true)))

/-- The catalog operations quantified over by the lifecycle claims. -/
inductive CatalogOp where
  | registerOp (v : ViewRec) (now : Nat)
  | incrementOp (name : String) (now : Nat)
  | promoteOp (name : String) (now : Nat)
  | updateOp (name : String) (u : FieldUpdates)
  | archiveOp (name : String)
deriving Repr

/-- State transition of one catalog operation (return values dropped). -/
def apply_op (c : Catalog) : CatalogOp → Catalog
  | CatalogOp.registerOp v now => (register_view c v now).1
  | CatalogOp.incrementOp n now => (increment_usage c n now).1
  | CatalogOp.promoteOp n now => (promote_view c n now).1
  | CatalogOp.updateOp n u => (update_view c n u).1
  | CatalogOp.archiveOp n => (delete_view c n).1

/-- State after a sequence of catalog operations. -/
def apply_ops (c : Catalog) (ops : List CatalogOp) : Catalog :=
  ops.foldl apply_op c

/-- The status transitions the spec's invariant admits: stay put,
DRAFT→PROMOTED, or anything→ARCHIVED. -/
def allowed_transition (s t : ViewStatus) : Prop :=
  s = t ∨ (s = ViewStatus.DRAFT ∧ t = ViewStatus.PROMOTED) ∨ t = ViewStatus.ARCHIVED

instance (s t : ViewStatus) : Decidable (allowed_transition s t) := by
  unfold allowed_transition
  exact inferInstance

/-- Whether an operation is the arbitrary-field update. -/
def is_update_op : CatalogOp → Bool
  | CatalogOp.updateOp _ _ => true
  | _ => false

/-- A foreign-key edge of the directed schema graph
(schema_graph.py, build_from_database). -/
structure DirEdge where
  src : String
  dst : String
  weight : ℚ
deriving DecidableEq, Repr

/-- The directed schema graph: tables and foreign-key edges. -/
structure SchemaGraph where
  nodes : List String
  edges : List DirEdge
deriving DecidableEq, Repr

/-- An edge of an undirected working graph; `u`/`v` record the
orientation under which the edge was stored, lookups treat them
symmetrically. -/
structure UEdge where
  u : String
  v : String
  weight : ℚ
deriving DecidableEq, Repr

/-- An undirected working graph.  `view_nodes` models the
`type='view'` node attribute set by the solver. -/
structure UGraph where
  nodes : List String
  view_nodes : List String
  edges : List UEdge
deriving DecidableEq, Repr

/-- `DiGraph.to_undirected()`: same nodes, edges made symmetric.
Reciprocal foreign-key pairs are assumed absent (none occur in the
schema). -/
def to_undirected (g : SchemaGraph) : UGraph :=
  { nodes := g.nodes,
    view_nodes := [],
    edges := g.edges.map (fun e => { u := e.src, v := e.dst, weight := e.weight }) }

/-- Whether an undirected edge joins `a` and `b` (either orientation). -/
def same_pair (a b : String) (e : UEdge) : Bool :=
  (e.u = a ∧ e.v = b) ∨ (e.u = b ∧ e.v = a)

/-- `graph.add_node(name, type='view', ...)`: inserts the node if
absent and marks it as a view. -/
def add_view_node (g : UGraph) (n : String) : UGraph :=
  { g with
    nodes := if n ∈ g.nodes then g.nodes else g.nodes ++ [n],
    view_nodes := if n ∈ g.view_nodes then g.view_nodes else g.view_nodes ++ [n] }

/-- `graph.add_edge(a, b, weight := w)`: replaces the data of an
existing a–b edge, otherwise appends the edge (both endpoints are
already nodes at every call site modelled here). -/
def add_edge (g : UGraph) (a b : String) (w : ℚ) : UGraph :=
  if g.edges.any (same_pair a b) then
    { g with edges := g.edges.map (fun e => if same_pair a b e then { e with weight := w } else e) }
  else
    { g with edges := g.edges ++ [{ u := a, v := b, weight := w }] }

/-- Neighbours of `n` with edge weights, in edge-list order. -/
def neighbors (g : UGraph) (n : String) : List (String × ℚ) :=
  g.edges.foldr (fun e acc =>
    if e.u = n then (e.v, e.weight) :: acc
    else if e.v = n then (e.u, e.weight) :: acc
    else acc) []

/-- One round of breadth expansion of a reachable set. -/
def expand_once (g : UGraph) (acc : List String) : List String :=
  acc.foldl (fun a x =>
    (neighbors g x).foldl (fun a' p => if p.1 ∈ a' then a' else a' ++ [p.1]) a) acc

/-- Saturating reachability with fuel. -/
def reach_aux (g : UGraph) : Nat → List String → List String
  | 0, acc => acc
  | n + 1, acc =>
      let nxt := expand_once g acc
      if nxt.length = acc.length then acc else reach_aux g n nxt

/-- Nodes reachable from `s` (the connected component of `s`). -/
def reach (g : UGraph) (s : String) : List String :=
  reach_aux g g.nodes.length [s]

/-- `nx.is_connected`: every node reachable from the first one. -/
def is_connected (g : UGraph) : Bool :=
  match g.nodes with
  | [] => true
  | n :: _ => g.nodes.all (fun m => m ∈ reach g n)

/-- `nx.connected_components`: component of each node in node order. -/
def connected_components (g : UGraph) : List (List String) :=
  g.nodes.foldl (fun comps n =>
    if comps.any (fun comp => n ∈ comp) then comps else comps ++ [reach g n]) []

/-- `max(components, key=len)`: first component of maximal size. -/
def largest_component (comps : List (List String)) : List String :=
  comps.foldl (fun best comp => if best.length < comp.length then comp else best) []

/-- `graph.subgraph(ns)`: induced subgraph on the node set `ns`. -/
def induced_subgraph (g : UGraph) (ns : List String) : UGraph :=
  { nodes := g.nodes.filter (fun n => n ∈ ns),
    view_nodes := g.view_nodes.filter (fun n => n ∈ ns),
    edges := g.edges.filter (fun e => e.u ∈ ns ∧ e.v ∈ ns) }

/-- Improve the tentative distance/path entry for `v`. -/
def relax (tent : List (String × ℚ × List String)) (v : String) (d : ℚ) (p : List String) :
    List (String × ℚ × List String) :=
  match tent.find? (fun e => e.1 = v) with
  | none => tent ++ [(v, d, p)]
  | some e0 =>
      if d < e0.2.1 then tent.map (fun e => if e.1 = v then (v, d, p) else e) else tent

/-- First entry of minimal tentative distance. -/
def pick_min (cands : List (String × ℚ × List String)) : Option (String × ℚ × List String) :=
  cands.foldl (fun best e =>
    match best with
    | none => some e
    | some b => if e.2.1 < b.2.1 then some e else best) none

/-- Dijkstra iteration: settle the closest unsettled node and relax
its neighbours. -/
def dijkstra_aux (g : UGraph) : Nat → List String → List (String × ℚ × List String) →
    List (String × ℚ × List String)
  | 0, _, tent => tent
  | n + 1, settled, tent =>
      match pick_min (tent.filter (fun e => ¬ e.1 ∈ settled)) with
      | none => tent
      | some e =>
          let tent' := (neighbors g e.1).foldl
            (fun t pr =>
              if pr.1 ∈ settled ∨ pr.1 = e.1 then t
              else relax t pr.1 (e.2.1 + pr.2) (e.2.2 ++ [pr.1])) tent
          dijkstra_aux g n (settled ++ [e.1]) tent'

/-- Single-source shortest distances and paths (weighted, as used by
the metric closure). -/
def dijkstra (g : UGraph) (s : String) : List (String × ℚ × List String) :=
  dijkstra_aux g g.nodes.length [] [(s, 0, [s])]

/-- Shortest weighted distance and path from `s` to `t`, `none` when
unreachable. -/
def shortest_dist_path (g : UGraph) (s t : String) : Option (ℚ × List String) :=
  ((dijkstra g s).find? (fun e => e.1 = t)).map (fun e => (e.2.1, e.2.2))

/-- Hop-count metric: all edge weights set to 1. -/
def unit_weights (g : UGraph) : UGraph :=
  { g with edges := g.edges.map (fun e => { e with weight := 1 }) }

/-- `nx.shortest_path` with no weight argument: fewest-hop path. -/
def bfs_path (g : UGraph) (s t : String) : Option (List String) :=
  (shortest_dist_path (unit_weights g) s t).map (fun dp => dp.2)

/-- SchemaGraph.get_shortest_path: raises `NodeNotFound` for unknown
endpoints (uncaught by the source, which only catches
`NetworkXNoPath`); returns `none` when no path exists. -/
def get_shortest_path (g : SchemaGraph) (s t : String) : Except String (Option (List String)) :=
  if s ∈ g.nodes ∧ t ∈ g.nodes then Except.ok (bfs_path (to_undirected g) s t)
  else Except.error "NodeNotFound"

/-- Weight of the schema edge between `a` and `b` in either direction,
defaulting to 1 (`.get('weight', 1.0)`). -/
def dir_weight (g : SchemaGraph) (a b : String) : ℚ :=
  match g.edges.find? (fun e => e.src = a ∧ e.dst = b) with
  | some e => e.weight
  | none =>
      match g.edges.find? (fun e => e.src = b ∧ e.dst = a) with
      | some e => e.weight
      | none => 1

/-- Sum of schema edge weights along a node path. -/
def path_cost (g : SchemaGraph) : List String → ℚ
  | a :: b :: rest => dir_weight g a b + path_cost g (b :: rest)
  | _ => 0

/-- SchemaGraph.calculate_join_cost: infinity for unknown tables or
disconnected pairs, direct edge weight when adjacent, otherwise the
weight sum along a fewest-hop path. -/
def calculate_join_cost (g : SchemaGraph) (t1 t2 : String) : WithTop ℚ :=
  if ¬ t1 ∈ g.nodes ∨ ¬ t2 ∈ g.nodes then ⊤
  else
    match g.edges.find? (fun e => e.src = t1 ∧ e.dst = t2) with
    | some e => (e.weight : WithTop ℚ)
    | none =>
        match g.edges.find? (fun e => e.src = t2 ∧ e.dst = t1) with
        | some e => (e.weight : WithTop ℚ)
        | none =>
            match bfs_path (to_undirected g) t1 t2 with
            | none => ⊤
            | some p => (path_cost g p : WithTop ℚ)

/-- Work loop of SchemaGraph.get_connected_tables: queue-based BFS with
a depth bound, collecting nodes in visit order. -/
def connected_tables_aux (g : UGraph) (maxDepth : Nat) :
    Nat → List (String × Nat) → List String → List String → List String
  | 0, _, _, connected => connected
  | fuel + 1, queue, visited, connected =>
      match queue with
      | [] => connected
      | (cur, depth) :: rest =>
          if cur ∈ visited ∨ maxDepth < depth then
            connected_tables_aux g maxDepth fuel rest visited connected
          else
            let visited' := visited ++ [cur]
            let queue' := rest ++ (neighbors g cur).filterMap
              (fun p => if p.1 ∈ visited' then none else some (p.1, depth + 1))
            connected_tables_aux g maxDepth fuel queue' visited' (connected ++ [cur])

/-- SchemaGraph.get_connected_tables: tables within `maxDepth` hops of
`table`, excluding `table` itself; `[]` when the table is unknown.  The
Python `list(set)` order is modelled as visit order. -/
def get_connected_tables (g : SchemaGraph) (table : String) (maxDepth : Nat := 2) : List String :=
  if table ∈ g.nodes then
    let und := to_undirected g
    (connected_tables_aux und maxDepth (2 * und.edges.length + und.nodes.length + 2)
        [(table, 0)] [] []).filter (fun x => x ≠ table)
  else []

/-- Unordered pairs of a terminal list, in list order. -/
def all_pairs : List String → List (String × String)
  | [] => []
  | t :: rest => rest.map (fun s => (t, s)) ++ all_pairs rest

/-- An edge of the metric closure over the terminals: a terminal pair,
its shortest-path distance and the realising path. -/
structure ClosureEdge where
  endA : String
  endB : String
  dist : ℚ
  path : List String
deriving DecidableEq, Repr

/-- `nx.metric_closure` restricted to the terminal set: shortest
distance and path per terminal pair (unreachable pairs omitted). -/
def metric_closure (g : UGraph) (ts : List String) : List ClosureEdge :=
  (all_pairs ts).filterMap (fun p =>
    (shortest_dist_path g p.1 p.2).map (fun dp =>
      { endA := p.1, endB := p.2, dist := dp.1, path := dp.2 }))

/-- Component of `x` in a partition (singleton fallback). -/
def find_comp (comps : List (List String)) (x : String) : List String :=
  (comps.find? (fun comp => x ∈ comp)).getD [x]

/-- Kruskal scan: keep an edge whenever it joins two components. -/
def kruskal_aux : List ClosureEdge → List (List String) → List ClosureEdge → List ClosureEdge
  | [], _, acc => acc
  | e :: rest, comps, acc =>
      let ca := find_comp comps e.endA
      let cb := find_comp comps e.endB
      if ca = cb then kruskal_aux rest comps acc
      else kruskal_aux rest ((comps.filter (fun comp => comp ≠ ca ∧ comp ≠ cb)) ++ [ca ++ cb]) (acc ++ [e])

/-- Closure edges ordered by distance. -/
def closure_le (x y : ClosureEdge) : Bool :=
  x.dist ≤ y.dist

/-- Stable insertion for closure edges (ascending distance). -/
def ins_closure (x : ClosureEdge) : List ClosureEdge → List ClosureEdge
  | [] => [x]
  | y :: ys => if closure_le x y then x :: y :: ys else y :: ins_closure x ys

/-- Stable insertion sort of closure edges by distance. -/
def sort_closure : List ClosureEdge → List ClosureEdge
  | [] => []
  | x :: xs => ins_closure x (sort_closure xs)

/-- Minimum spanning tree of the metric closure (Kruskal). -/
def kruskal_mst (ts : List String) (es : List ClosureEdge) : List ClosureEdge :=
  kruskal_aux (sort_closure es) (ts.map (fun t => [t])) []

/-- Consecutive pairs of a path. -/
def path_pairs : List String → List (String × String)
  | a :: b :: rest => (a, b) :: path_pairs (b :: rest)
  | _ => []

/-- Canonical form of an unordered node pair. -/
def norm_pair (a b : String) : String × String :=
  if a ≤ b then (a, b) else (b, a)

/-- Weight of the `a`–`b` edge in the working graph, defaulting to 1
(`steiner_tree[u][v].get('weight', 1.0)`). -/
def uedge_weight (g : UGraph) (a b : String) : ℚ :=
  match g.edges.find? (same_pair a b) with
  | some e => e.weight
  | none => 1

/-- `nx.algorithms.approximation.steiner_tree` (Kou et al., as the spec
describes it): minimum spanning tree of the metric closure on the
terminals, expanded into shortest paths whose edge union, deduplicated,
is the returned tree.  Modelled from the spec for the library call: the
networkx implementation is not part of this repository. -/
def steiner_tree_kou (g : UGraph) (ts : List String) : List String × List UEdge :=
  let mst := kruskal_mst ts (metric_closure g ts)
  let prs := mst.foldl (fun acc e => acc ++ path_pairs e.path) []
  let dedup := prs.foldl (fun acc p =>
      if acc.any (fun q => norm_pair q.1 q.2 = norm_pair p.1 p.2) then acc else acc ++ [p]) []
  let nodes := mst.foldl (fun acc e => acc ++ e.path.filter (fun x => ¬ x ∈ acc)) []
  (nodes, dedup.map (fun p => { u := p.1, v := p.2, weight := uedge_weight g p.1 p.2 }))

/-- `round(x, 4)` of the source; all values reached by the claims are
exact multiples of 1/10000, where every rounding convention is the
identity. -/
def round4 (q : ℚ) : ℚ :=
  ((round (q * 10000) : ℤ) : ℚ) / 10000

/-- The solution record returned by SteinerTreeSolver.solve (the
`subgraph` and `path_description` entries are represented by the node,
edge and cost summaries the claims consult). -/
structure SolveResult where
  terminal_tables : List String
  tables_used : List String
  views_used : List String
  total_nodes : Nat
  total_edges : Nat
  total_cost : ℚ
  used_views : Bool
deriving DecidableEq, Repr

/-- SteinerTreeSolver._empty_result. -/
def empty_result : SolveResult :=
  { terminal_tables := [], tables_used := [], views_used := [],
    total_nodes := 0, total_edges := 0, total_cost := 0, used_views := false }

/-- SteinerTreeSolver._single_table_result. -/
def single_table_result (t : String) : SolveResult :=
  { terminal_tables := [t], tables_used := [t], views_used := [],
    total_nodes := 1, total_edges := 0, total_cost := 0, used_views := false }

/-- SteinerTreeSolver._analyze_solution: split tree nodes into tables
and views, sum edge weights, round the cost. -/
def analyze_solution (g : UGraph) (tree : List String × List UEdge) (ts : List String)
    (usedViews : Bool) : SolveResult :=
  { terminal_tables := ts,
    tables_used := tree.1.filter (fun n => ¬ n ∈ g.view_nodes),
    views_used := tree.1.filter (fun n => n ∈ g.view_nodes),
    total_nodes := tree.1.length,
    total_edges := tree.2.length,
    total_cost := round4 (tree.2.foldl (fun s e => s + e.weight) 0),
    used_views := usedViews }

/-- SteinerTreeSolver._build_unified_graph, inner loop: add one view
node and a zero-weight edge to each base table present in the graph. -/
def add_view_to_graph (g : UGraph) (v : ViewRec) : UGraph :=
  let g1 := add_view_node g v.view_name
  v.base_tables.foldl (fun h t => if t ∈ h.nodes then add_edge h v.view_name t 0 else h) g1

/-- The views folded into the unified graph:
`get_all_views(status='PROMOTED')` then
`get_all_views(status='MATERIALIZED')`. -/
def views_for_unified (c : Catalog) : List ViewRec :=
  get_all_views c none (some ViewStatus.PROMOTED) ++
    get_all_views c none (some ViewStatus.MATERIALIZED)

/-- SteinerTreeSolver._build_unified_graph: the undirected schema graph
plus promoted/materialized view nodes with zero-weight edges to their
base tables. -/
def build_unified_graph (sg : SchemaGraph) (c : Catalog) : UGraph :=
  (views_for_unified c).foldl add_view_to_graph (to_undirected sg)

/-- Validation failure of SteinerTreeSolver.solve. -/
inductive SolverErr where
  | tablesNotInSchema (missing : List String)
deriving DecidableEq, Repr

/-- The graph the solver searches: the unified graph when views are
requested and a catalog is present, the undirected schema graph
otherwise. -/
def working_graph (sg : SchemaGraph) (cat : Option Catalog) (useViews : Bool) : UGraph :=
  match useViews, cat with
  | true, some c => build_unified_graph sg c
  | _, _ => to_undirected sg

/-- SteinerTreeSolver.solve: validate the terminals, dispatch the
degenerate sizes, restrict to the largest connected component when the
working graph is disconnected, then run the Steiner approximation. -/
def solve (sg : SchemaGraph) (cat : Option Catalog) (ts : List String) (useViews : Bool) :
    Except SolverErr SolveResult :=
  let missing := ts.filter (fun t => ¬ t ∈ sg.nodes)
  if missing = [] then
    match ts with
    | [] => Except.ok empty_result
    | [t] => Except.ok (single_table_result t)
    | _ =>
        let g := working_graph sg cat useViews
        if is_connected g then
          Except.ok (analyze_solution g (steiner_tree_kou g ts) ts useViews)
        else
          let g' := induced_subgraph g (largest_component (connected_components g))
          let valid := ts.filter (fun t => t ∈ g'.nodes)
          match valid with
          | [] => Except.ok empty_result
          | [t] => Except.ok (single_table_result t)
          | _ => Except.ok (analyze_solution g' (steiner_tree_kou g' valid) valid useViews)
  else Except.error (SolverErr.tablesNotInSchema missing)

/-- The cost/size summary returned by
SteinerTreeSolver.compare_solutions (percentage entry omitted). -/
structure Comparison where
  cost_without : ℚ
  cost_with : ℚ
  cost_reduction : ℚ
  tables_avoided : Int
deriving DecidableEq, Repr

/-- SteinerTreeSolver.compare_solutions: solve without views, then with
views when a catalog is present, and report the savings. -/
def compare_solutions (sg : SchemaGraph) (cat : Option Catalog) (ts : List String) :
    Except SolverErr Comparison :=
  match solve sg cat ts false with
  | Except.error e => Except.error e
  | Except.ok wo =>
      match (match cat with
             | some _ => solve sg cat ts true
             | none => Except.ok wo) with
      | Except.error e => Except.error e
      | Except.ok wi =>
          Except.ok
            { cost_without := wo.total_cost,
              cost_with := wi.total_cost,
              cost_reduction := round4 (wo.total_cost - wi.total_cost),
              tables_avoided := (wo.tables_used.length : Int) - (wi.tables_used.length : Int) }

/-- Binary-scaling loop for rounding: doubles the numerator (tracking
exponent `u`) or the denominator (tracking exponent `d`) until the
quotient `a / b` lies in `[2^52, 2^53)`; fuel 600 covers every exponent
reached by the embedded computations.  The state is kept in `Nat` so the
kernel evaluates it with bignum arithmetic. -/
def fl_scale_loop : Nat → Nat × Nat × Nat × Nat → Nat × Nat × Nat × Nat
  | 0, st => st
  | n + 1, (a, b, u, d) =>
      if a < 4503599627370496 * b then fl_scale_loop n (a * 2, b, u + 1, d)
      else if 9007199254740992 * b ≤ a then fl_scale_loop n (a, b * 2, u, d + 1)
      else (a, b, u, d)

/-- Round the exact quotient `a / b` to the nearest integer, ties to
even. -/
def nat_round_half_even (a b : Nat) : Nat :=
  let n := a / b
  let r := a % b
  if 2 * r < b then n
  else if b < 2 * r then n + 1
  else if n % 2 = 0 then n else n + 1

/-- Round a positive rational to 53 significant bits, nearest-even:
scale into `[2^52, 2^53)`, round the scaled quotient to an integer
significand, and undo the scaling. -/
def rnd53_pos (x : ℚ) : ℚ :=
  let st := fl_scale_loop 600 (x.num.natAbs, x.den, 0, 0)
  let m := nat_round_half_even st.1 st.2.1
  ((m * 2 ^ st.2.2.2 : Nat) : ℚ) / ((2 ^ st.2.2.1 : Nat) : ℚ)

/-- IEEE-754 binary64 rounding (round-to-nearest-even, 53-bit
significand, unbounded exponent), as a map from exact rationals to the
rationals the format can represent.  Modelled from the spec for the
numpy / C library arithmetic, which is not part of this repository:
away from overflow and underflow — the regime of every value these
claims reach — binary64 behaves exactly like this model, and each
`fl_*` operation below is the correctly rounded version of its exact
counterpart, as IEEE 754 requires of `+`, `*`, `/` and `sqrt`. -/
def rnd53 (x : ℚ) : ℚ :=
  if x = 0 then 0
  else if 0 < x then rnd53_pos x
  else - rnd53_pos (-x)

/-- Float addition: the exact sum, correctly rounded. -/
def fl_add (x y : ℚ) : ℚ := rnd53 (x + y)

/-- Float multiplication: the exact product, correctly rounded. -/
def fl_mul (x y : ℚ) : ℚ := rnd53 (x * y)

/-- Float division: the exact quotient, correctly rounded. -/
def fl_div (x y : ℚ) : ℚ := rnd53 (x / y)

/-- Scaling loop for square roots: multiplies numerator or denominator
by 4 (halved on the way out) until `a / b` lies in `[2^104, 2^106)`, so
that the integer square root of the quotient lies in `[2^52, 2^53)`. -/
def sqrt_scale_loop : Nat → Nat × Nat × Nat × Nat → Nat × Nat × Nat × Nat
  | 0, st => st
  | n + 1, (a, b, u, d) =>
      if a < 20282409603651670423947251286016 * b then sqrt_scale_loop n (a * 4, b, u + 1, d)
      else if 81129638414606681695789005144064 * b ≤ a then sqrt_scale_loop n (a, b * 4, u, d + 1)
      else (a, b, u, d)

/-- Binary search for the integer square root of `a / b` on `[lo, hi)`,
maintaining `lo^2 * b ≤ a < hi^2 * b`; fuel 60 halves the initial
`2^52`-wide interval to a point. -/
def isqrt_bin : Nat → Nat → Nat → Nat → Nat → Nat
  | 0, _, _, lo, _ => lo
  | f + 1, a, b, lo, hi =>
      if hi ≤ lo + 1 then lo
      else
        let mid := (lo + hi) / 2
        if mid * mid * b ≤ a then isqrt_bin f a b mid hi
        else isqrt_bin f a b lo mid

/-- Given `n = ⌊sqrt (a / b)⌋`, pick `n` or `n + 1`, whichever is nearer
to the exact root (comparing `sqrt (a / b)` with `n + 1/2` via
`4 * a` vs `(2 * n + 1)^2 * b`), ties to even. -/
def nearest_sqrt (a b n : Nat) : Nat :=
  if (2 * n + 1) * (2 * n + 1) * b < 4 * a then n + 1
  else if 4 * a < (2 * n + 1) * (2 * n + 1) * b then n
  else if n % 2 = 0 then n else n + 1

/-- Correctly rounded binary64 square root of a nonnegative rational
(IEEE 754 requires sqrt correctly rounded): scale by powers of 4 into
`[2^104, 2^106)`, take the nearest 53-bit integer root, undo the
scaling. -/
def fl_sqrt (x : ℚ) : ℚ :=
  if x ≤ 0 then 0
  else
    let st := sqrt_scale_loop 600 (x.num.natAbs, x.den, 0, 0)
    let n := isqrt_bin 60 st.1 st.2.1 4503599627370496 9007199254740992
    let m := nearest_sqrt st.1 st.2.1 n
    ((m * 2 ^ st.2.2.2 : Nat) : ℚ) / ((2 ^ st.2.2.1 : Nat) : ℚ)

/-- `np.dot` on 1-D arrays: the running float sum of the pairwise float
products (`s = fl_add s (fl_mul a_i b_i)` from `s = 0`; numpy's pairwise
summation coincides with this left-to-right loop on the short vectors
the claims use). -/
def np_dot_aux : ℚ → List ℚ → List ℚ → ℚ
  | s, a :: as, b :: bs => np_dot_aux (fl_add s (fl_mul a b)) as bs
  | s, _, _ => s

/-- `np.dot a b` for 1-D `a`, `b`. -/
def np_dot (a b : List ℚ) : ℚ := np_dot_aux 0 a b

/-- `np.linalg.norm v`: the float square root of the float dot product
of `v` with itself. -/
def np_norm (v : List ℚ) : ℚ := fl_sqrt (np_dot v v)

/-- SemanticSearch.cosine_similarity in binary64 arithmetic: computes
`np.dot a b`, `np.linalg.norm a`, `np.linalg.norm b`, returns 0 when
either norm is zero, otherwise the float quotient of the dot product by
the float product of the norms. -/
def cosine_similarity (a b : List ℚ) : ℚ :=
  let norm_a := np_norm a
  let norm_b := np_norm b
  if norm_a = 0 ∨ norm_b = 0 then 0
  else fl_div (np_dot a b) (fl_mul norm_a norm_b)

/-- Endpoints mentioned by an edge list, without duplicates. -/
def edge_endpoints (es : List UEdge) : List String :=
  es.foldl (fun acc e =>
    let acc' := if e.u ∈ acc then acc else acc ++ [e.u]
    if e.v ∈ acc' then acc' else acc' ++ [e.v]) []

/-- Whether the edge set `es` connects all the terminals `ts` with one
another (the defining property of a Steiner subgraph). -/
def spans (es : List UEdge) (ts : List String) : Bool :=
  match ts with
  | [] => true
  | t :: rest =>
      let ns := edge_endpoints es
      let g : UGraph :=
        { nodes := ns ++ ts.filter (fun x => ¬ x ∈ ns), view_nodes := [], edges := es }
      rest.all (fun s => s ∈ reach g t)

/-- Total weight of an edge set. -/
def edges_cost (es : List UEdge) : ℚ :=
  es.foldl (fun s e => s + e.weight) 0

/-- The exact optimum the spec's zero-weight-shortcut argument is
about: the least total weight of a sub-edge-set of `es` connecting all
terminals (⊤ when none does). -/
def st_conn_cost (es : List UEdge) (ts : List String) : WithTop ℚ :=
  ((es.sublists.filter (fun s => spans s ts)).map
      (fun s => ((edges_cost s : ℚ) : WithTop ℚ))).foldr min ⊤

/-- The well-formedness assumptions of the unified-graph analysis:
schema edges join schema nodes, view names are fresh and unique, base
tables are not view names, and each view's base-table list is
duplicate-free.  These hold for every catalog whose records obey the
`v_` naming rule and the base_tables ⊆ schema-tables invariant. -/
def WellFormedSetup (sg : SchemaGraph) (c : Catalog) : Prop :=
  (∀ e ∈ sg.edges, e.src ∈ sg.nodes ∧ e.dst ∈ sg.nodes) ∧
  (∀ v ∈ c, ¬ v.view_name ∈ sg.nodes) ∧
  (c.map (fun v => v.view_name)).Nodup ∧
  (∀ v ∈ c, ∀ t ∈ v.base_tables, ¬ t ∈ c.map (fun w => w.view_name)) ∧
  (∀ v ∈ c, v.base_tables.Nodup)

instance (sg : SchemaGraph) (c : Catalog) : Decidable (WellFormedSetup sg c) := by
  unfold WellFormedSetup
  exact inferInstance

instance {ε α : Type} [DecidableEq ε] [DecidableEq α] : DecidableEq (Except ε α) := fun a b =>
  match a, b with
  | Except.error x, Except.error y => decidable_of_iff (x = y) (by simp)
  | Except.ok x, Except.ok y => decidable_of_iff (x = y) (by simp)
  | Except.error _, Except.ok _ => isFalse (by simp)
  | Except.ok _, Except.error _ => isFalse (by simp)

/-- The zero-weight block of edges one view contributes to the unified
graph. -/
def view_block (sg : SchemaGraph) (v : ViewRec) : List UEdge :=
  (v.base_tables.filter (fun t => t ∈ sg.nodes)).map
    (fun t => { u := v.view_name, v := t, weight := 0 })

/-! ### Concrete instances used by witnesses and counterexamples -/

/-- Schema graph of the compare_solutions counterexample: a hub `c`
joining the three terminals, plus a detour `t1–x` / `y–t2` that a view
bridges. -/
def sgC1 : SchemaGraph :=
  { nodes := ["t1", "t2", "t3", "c", "x", "y"],
    edges := [ { src := "t1", dst := "c", weight := 1 },
               { src := "t2", dst := "c", weight := 51/50 },
               { src := "t3", dst := "c", weight := 99/100 },
               { src := "t1", dst := "x", weight := 9/10 },
               { src := "y", dst := "t2", weight := 49/50 } ] }

/-- A promoted view over the detour endpoints `x` and `y`. -/
def catC1 : Catalog :=
  [ { view_name := "v_xy", layer := 1, domain := "fraud",
      base_tables := ["x", "y"], status := ViewStatus.PROMOTED } ]

/-- Two-table schema graph for the unknown-table claims. -/
def sgC3 : SchemaGraph :=
  { nodes := ["a", "b"], edges := [ { src := "a", dst := "b", weight := 1 } ] }

/-- Disconnected schema graph: a five-table chain and a separate
two-table pair holding both terminals. -/
def sgC4 : SchemaGraph :=
  { nodes := ["a1", "a2", "a3", "a4", "a5", "b1", "b2"],
    edges := [ { src := "a1", dst := "a2", weight := 1 },
               { src := "a2", dst := "a3", weight := 1 },
               { src := "a3", dst := "a4", weight := 1 },
               { src := "a4", dst := "a5", weight := 1 },
               { src := "b1", dst := "b2", weight := 1 } ] }

/-- One-table schema graph for the unified-graph counterexample. -/
def sgC6 : SchemaGraph := { nodes := ["t1"], edges := [] }

/-- A promoted view whose declared base table is not a schema table. -/
def catC6 : Catalog :=
  [ { view_name := "v_g", layer := 1, domain := "fraud",
      base_tables := ["ghost"], status := ViewStatus.PROMOTED } ]

/-- Older fraud view (rowid 1, created tick 1, usage 5). -/
def recA : ViewRec :=
  { view_name := "v_a", layer := 1, domain := "fraud", usage_count := 5, created_date := some 1 }

/-- Newer fraud view (rowid 2, created tick 2, usage 5). -/
def recB : ViewRec :=
  { view_name := "v_b", layer := 1, domain := "fraud", usage_count := 5, created_date := some 2 }

/-- A DRAFT view two usages short of nothing, one short of promotion. -/
def recW : ViewRec :=
  { view_name := "v_w", layer := 1, domain := "fraud", usage_count := 2,
    status := ViewStatus.DRAFT }

/-- A registered view used by the duplicate-registration witness. -/
def recV : ViewRec :=
  { view_name := "v_v", layer := 1, domain := "fraud", created_date := some 1 }

/-- A DRAFT view subjected to an arbitrary status update. -/
def recP : ViewRec :=
  { view_name := "v_p", layer := 1, domain := "fraud", status := ViewStatus.DRAFT }

/-- The archived record of the frame-effect witness. -/
def recX : ViewRec :=
  { view_name := "v_x", layer := 2, domain := "risk", description := some "target",
    tags := ["k"], base_tables := ["t"], usage_count := 4, created_date := some 3,
    last_used := some 9, view_definition := "CREATE VIEW v_x AS SELECT 1" }

/-- An unrelated record that archival must leave untouched. -/
def recY : ViewRec :=
  { view_name := "v_y", layer := 1, domain := "fraud", usage_count := 1 }

/-! ### Helper lemmas about the catalog operations -/

theorem find_by_name_map (c : Catalog) (n : String) (f : ViewRec → ViewRec)
    (hf : ∀ x, (f x).view_name = x.view_name) :
    find_by_name (c.map f) n = (find_by_name c n).map f := by
  unfold find_by_name
  rw [List.find?_map]
  have hp : ((fun r : ViewRec => decide (r.view_name = n)) ∘ f)
      = (fun r : ViewRec => decide (r.view_name = n)) := by
    funext x
    simp [Function.comp, hf]
  rw [hp]

theorem find_by_name_of_nodup {c : Catalog} {r : ViewRec} {n : String}
    (hN : (c.map (fun v => v.view_name)).Nodup) (hr : r ∈ c) (hname : r.view_name = n) :
    find_by_name c n = some r := by
  induction c with
  | nil => cases hr
  | cons a tl ih =>
      rw [List.map_cons, List.nodup_cons] at hN
      rcases List.mem_cons.mp hr with h | h
      · subst h
        unfold find_by_name
        rw [List.find?_cons_of_pos]
        simp [hname]
      · have han : ¬ (a.view_name = n) := by
          intro he
          apply hN.1
          rw [he, ← hname]
          exact List.mem_map_of_mem _ h
        unfold find_by_name
        rw [List.find?_cons_of_neg]
        · exact ih hN.2 h
        · simp [han]

theorem map_names_eq (c : Catalog) (f : ViewRec → ViewRec)
    (hf : ∀ x, (f x).view_name = x.view_name) :
    (c.map f).map (fun v => v.view_name) = c.map (fun v => v.view_name) := by
  rw [List.map_map]
  congr 1
  funext x
  simp [Function.comp, hf]

theorem increment_usage_find {c : Catalog} {n : String} {r : ViewRec} (now : Nat)
    (hN : (c.map (fun v => v.view_name)).Nodup) (hr : r ∈ c) (hname : r.view_name = n) :
    find_by_name (increment_usage c n now).1 n = some (
      if 3 ≤ r.usage_count + 1 ∧ r.status = ViewStatus.DRAFT then
        { r with usage_count := r.usage_count + 1, last_used := some now,
                 status := ViewStatus.PROMOTED, promoted_date := some now }
      else { r with usage_count := r.usage_count + 1, last_used := some now })
    ∧ ((increment_usage c n now).1).map (fun v => v.view_name)
        = c.map (fun v => v.view_name) := by
  have hfpres : ∀ x : ViewRec,
      ((fun x : ViewRec => if x.view_name = n then
          { x with usage_count := x.usage_count + 1, last_used := some now }
        else x) x).view_name = x.view_name := by
    intro x
    by_cases h : x.view_name = n <;> simp [h]
  have hgpres : ∀ x : ViewRec,
      ((fun x : ViewRec => if x.view_name = n ∧ x.status = ViewStatus.DRAFT then
          { x with status := ViewStatus.PROMOTED, promoted_date := some now }
        else x) x).view_name = x.view_name := by
    intro x
    by_cases h : x.view_name = n ∧ x.status = ViewStatus.DRAFT <;> simp [h]
  have hfind1 : find_by_name
      (c.map (fun x : ViewRec => if x.view_name = n then
          { x with usage_count := x.usage_count + 1, last_used := some now }
        else x)) n
      = some { r with usage_count := r.usage_count + 1, last_used := some now } := by
    rw [find_by_name_map _ _ _ hfpres, find_by_name_of_nodup hN hr hname]
    simp [hname]
  have hany : c.any (fun x => x.view_name = n) = true :=
    List.any_eq_true.mpr ⟨r, hr, by simp [hname]⟩
  by_cases hcond : 3 ≤ r.usage_count + 1 ∧ r.status = ViewStatus.DRAFT
  · simp only [increment_usage, hany, if_true, hfind1, promote_view]
    rw [if_pos (by simpa using hcond)]
    constructor
    · rw [find_by_name_map _ _ _ hgpres, hfind1]
      rw [if_pos hcond]
      simp only [Option.map_some']
      rw [if_pos (by simpa using ⟨hname, hcond.2⟩)]
    · rw [map_names_eq _ _ hgpres, map_names_eq _ _ hfpres]
  · simp only [increment_usage, hany, if_true, hfind1]
    rw [if_neg (by simpa using hcond)]
    constructor
    · rw [hfind1, if_neg hcond]
    · rw [map_names_eq _ _ hfpres]

theorem mem_of_find_by_name {c : Catalog} {n : String} {r : ViewRec}
    (h : find_by_name c n = some r) : r ∈ c :=
  List.mem_of_find?_eq_some h

theorem name_of_find_by_name {c : Catalog} {n : String} {r : ViewRec}
    (h : find_by_name c n = some r) : r.view_name = n := by
  have := List.find?_some h
  simpa using this

/-- C2: a DRAFT record with usage_count 2 reaches usage_count 3 and
status PROMOTED after one increment_usage call; a fresh DRAFT record
(usage_count 0) is still DRAFT after one and after two increments; and
an increment on a PROMOTED record leaves it PROMOTED. -/
theorem increment_usage_promotion_behavior :
    ∀ (c : Catalog) (n : String) (r : ViewRec),
      (c.map (fun v => v.view_name)).Nodup → r ∈ c → r.view_name = n →
      ((∀ now, r.status = ViewStatus.DRAFT → r.usage_count = 2 →
          ∃ r', find_by_name (increment_usage c n now).1 n = some r' ∧
            r'.usage_count = 3 ∧ r'.status = ViewStatus.PROMOTED) ∧
       (∀ t1 t2, r.status = ViewStatus.DRAFT → r.usage_count = 0 →
          ∃ r1 r2,
            find_by_name (increment_usage c n t1).1 n = some r1 ∧
            r1.status = ViewStatus.DRAFT ∧ r1.usage_count = 1 ∧
            find_by_name (increment_usage (increment_usage c n t1).1 n t2).1 n = some r2 ∧
            r2.status = ViewStatus.DRAFT ∧ r2.usage_count = 2) ∧
       (∀ now, r.status = ViewStatus.PROMOTED →
          ∃ r', find_by_name (increment_usage c n now).1 n = some r' ∧
            r'.status = ViewStatus.PROMOTED)) := by
  intro c n r hN hr hname
  refine ⟨?_, ?_, ?_⟩
  · intro now hD hU
    obtain ⟨hfind, _⟩ := increment_usage_find now hN hr hname
    rw [if_pos ⟨by omega, hD⟩] at hfind
    exact ⟨_, hfind, by simp [hU], by simp⟩
  · intro t1 t2 hD hU
    obtain ⟨hfind1, hnames1⟩ := increment_usage_find t1 hN hr hname
    rw [if_neg (by simp [hU])] at hfind1
    have hN' : ((increment_usage c n t1).1.map (fun v => v.view_name)).Nodup := by
      rw [hnames1]
      exact hN
    have hr1mem := mem_of_find_by_name hfind1
    have hname1 := name_of_find_by_name hfind1
    obtain ⟨hfind2, _⟩ := increment_usage_find t2 hN' hr1mem hname1
    rw [if_neg (by simp [hU])] at hfind2
    exact ⟨_, _, hfind1, by simp [hD], by simp [hU], hfind2, by simp [hD], by simp [hU]⟩
  · intro now hP
    obtain ⟨hfind, _⟩ := increment_usage_find now hN hr hname
    rw [if_neg (by simp [hP])] at hfind
    exact ⟨_, hfind, by simp [hP]⟩

/-- Witness for C2: incrementing the concrete DRAFT record `recW`
(usage_count 2) yields usage_count 3 and status PROMOTED. -/
theorem increment_usage_promotion_behavior_witness :
    (find_by_name (increment_usage [recW] "v_w" 5).1 "v_w").map
        (fun x => (x.usage_count, x.status))
      = some (3, ViewStatus.PROMOTED) := by
  obtain ⟨r', hfind, hu, hs⟩ :=
    (increment_usage_promotion_behavior [recW] "v_w" recW (by decide) (by decide)
      (by decide)).1 5 (by decide) (by decide)
  simp [hfind, hu, hs]

/-- C5: registering a view whose name already exists raises
DuplicateView (a ValueError in the source) and leaves the stored record
set exactly as it was. -/
theorem register_view_duplicate_unchanged :
    ∀ (c : Catalog) (v : ViewRec) (now : Nat),
      (∃ r ∈ c, r.view_name = v.view_name) →
      (register_view c v now).1 = c ∧
      (register_view c v now).2 = Except.error ("View already exists: " ++ v.view_name) := by
  intro c v now hex
  obtain ⟨r, hr, hname⟩ := hex
  have hs : (List.find? (fun x => decide (x.view_name = v.view_name)) c).isSome :=
    List.find?_isSome.mpr ⟨r, hr, by simp [hname]⟩
  obtain ⟨w, hw⟩ := Option.isSome_iff_exists.mp hs
  have hw' : find_by_name c v.view_name = some w := hw
  unfold register_view
  rw [hw']
  exact ⟨rfl, rfl⟩

/-- Witness for C5: re-registering `recV` into a catalog already
holding it fails and changes nothing. -/
theorem register_view_duplicate_unchanged_witness :
    (register_view [recV] recV 9).1 = [recV] ∧
    (register_view [recV] recV 9).2
      = Except.error ("View already exists: " ++ recV.view_name) :=
  register_view_duplicate_unchanged [recV] recV 9 ⟨recV, by decide, by decide⟩

/-- C10: archiving (delete_view) sets the named record's status to
ARCHIVED while preserving every one of its other fields, and leaves
every record with a different name untouched. -/
theorem delete_view_archives_frame :
    ∀ (c : Catalog) (n : String) (r : ViewRec), r ∈ c → r.view_name = n →
      (∃ r' ∈ (delete_view c n).1,
         r'.status = ViewStatus.ARCHIVED ∧ r'.view_name = r.view_name ∧
         r'.layer = r.layer ∧ r'.domain = r.domain ∧ r'.description = r.description ∧
         r'.tags = r.tags ∧ r'.base_tables = r.base_tables ∧
         r'.usage_count = r.usage_count ∧ r'.created_date = r.created_date ∧
         r'.promoted_date = r.promoted_date ∧ r'.last_used = r.last_used ∧
         r'.last_validated = r.last_validated ∧ r'.view_definition = r.view_definition) ∧
      (∀ s ∈ c, s.view_name ≠ n → s ∈ (delete_view c n).1) := by
  intro c n r hr hname
  have hresult : (delete_view c n).1
      = c.map (fun x =>
          if x.view_name = n then
            apply_updates { status := some ViewStatus.ARCHIVED } x
          else x) := by
    unfold delete_view update_view
    rw [if_neg (by simp [FieldUpdates.isEmpty])]
  constructor
  · refine ⟨apply_updates { status := some ViewStatus.ARCHIVED } r, ?_, ?_⟩
    · rw [hresult]
      have hmem := List.mem_map_of_mem (fun x =>
        if x.view_name = n then
          apply_updates { status := some ViewStatus.ARCHIVED } x
        else x) hr
      dsimp only at hmem
      rw [if_pos hname] at hmem
      exact hmem
    · simp [apply_updates]
  · intro s hs hsname
    rw [hresult]
    have hmem := List.mem_map_of_mem (fun x =>
      if x.view_name = n then
        apply_updates { status := some ViewStatus.ARCHIVED } x
      else x) hs
    dsimp only at hmem
    rw [if_neg hsname] at hmem
    exact hmem

/-- Witness for C10: archiving `v_x` keeps the unrelated record `recY`
in the catalog unchanged. -/
theorem delete_view_archives_frame_witness :
    recY ∈ (delete_view [recX, recY] "v_x").1 :=
  (delete_view_archives_frame [recX, recY] "v_x" recX (by decide) (by decide)).2
    recY (by decide) (by decide)

theorem allowed_transition_refl (s : ViewStatus) : allowed_transition s s :=
  Or.inl rfl

theorem allowed_transition_trans {a b c : ViewStatus}
    (h1 : allowed_transition a b) (h2 : allowed_transition b c) :
    allowed_transition a c := by
  rcases h1 with rfl | ⟨rfl, rfl⟩ | rfl
  · exact h2
  · rcases h2 with rfl | ⟨h, _⟩ | rfl
    · exact Or.inr (Or.inl ⟨rfl, rfl⟩)
    · exact ViewStatus.noConfusion h
    · exact Or.inr (Or.inr rfl)
  · rcases h2 with rfl | ⟨h, _⟩ | rfl
    · exact Or.inr (Or.inr rfl)
    · exact ViewStatus.noConfusion h
    · exact Or.inr (Or.inr rfl)

theorem apply_op_preserves (c : Catalog) (op : CatalogOp) (r : ViewRec) (hr : r ∈ c) :
    ∃ r' ∈ apply_op c op, r'.view_name = r.view_name ∧
      (is_update_op op = false → allowed_transition r.status r'.status) := by
  cases op with
  | registerOp v now =>
      simp only [apply_op]
      refine ⟨r, ?_, rfl, fun _ => Or.inl rfl⟩
      unfold register_view
      cases hfind : find_by_name c v.view_name with
      | some w => exact hr
      | none => exact List.mem_append_left _ hr
  | promoteOp n now =>
      simp only [apply_op, promote_view]
      refine ⟨_, List.mem_map_of_mem _ hr, ?_, fun _ => ?_⟩
      · by_cases h : r.view_name = n ∧ r.status = ViewStatus.DRAFT <;> simp [h]
      · by_cases h : r.view_name = n ∧ r.status = ViewStatus.DRAFT
        · simp only [if_pos h]
          exact Or.inr (Or.inl ⟨h.2, rfl⟩)
        · simp only [if_neg h]
          exact Or.inl rfl
  | updateOp n u =>
      simp only [apply_op, update_view]
      by_cases he : FieldUpdates.isEmpty u = true
      · rw [if_pos he]
        exact ⟨r, hr, rfl, fun h => by simp [is_update_op] at h⟩
      · rw [if_neg he]
        refine ⟨_, List.mem_map_of_mem _ hr, ?_, fun h => by simp [is_update_op] at h⟩
        by_cases hn : r.view_name = n
        · simp [hn, apply_updates]
        · simp [hn]
  | archiveOp n =>
      simp only [apply_op, delete_view, update_view]
      rw [if_neg (by simp [FieldUpdates.isEmpty])]
      refine ⟨_, List.mem_map_of_mem _ hr, ?_, fun _ => ?_⟩
      · by_cases hn : r.view_name = n
        · simp [hn, apply_updates]
        · simp [hn]
      · by_cases hn : r.view_name = n
        · simp only [if_pos hn]
          exact Or.inr (Or.inr (by simp [apply_updates]))
        · simp only [if_neg hn]
          exact Or.inl rfl
  | incrementOp n now =>
      have hbump_mem := List.mem_map_of_mem (fun x : ViewRec =>
        if x.view_name = n then
          { x with usage_count := x.usage_count + 1, last_used := some now }
        else x) hr
      have hbump_name : ∀ x : ViewRec,
          ((fun x : ViewRec => if x.view_name = n then
              { x with usage_count := x.usage_count + 1, last_used := some now }
            else x) x).view_name = x.view_name := by
        intro x
        by_cases h : x.view_name = n <;> simp [h]
      have hbump_status : ∀ x : ViewRec,
          ((fun x : ViewRec => if x.view_name = n then
              { x with usage_count := x.usage_count + 1, last_used := some now }
            else x) x).status = x.status := by
        intro x
        by_cases h : x.view_name = n <;> simp [h]
      have hprom_name : ∀ x : ViewRec,
          ((fun x : ViewRec =>
            if x.view_name = n ∧ x.status = ViewStatus.DRAFT then
              { x with status := ViewStatus.PROMOTED, promoted_date := some now }
            else x) x).view_name = x.view_name := by
        intro x
        by_cases h : x.view_name = n ∧ x.status = ViewStatus.DRAFT <;> simp [h]
      have hprom_allowed : ∀ x : ViewRec,
          allowed_transition x.status
            ((fun x : ViewRec =>
              if x.view_name = n ∧ x.status = ViewStatus.DRAFT then
                { x with status := ViewStatus.PROMOTED, promoted_date := some now }
              else x) x).status := by
        intro x
        by_cases h : x.view_name = n ∧ x.status = ViewStatus.DRAFT
        · simp only [if_pos h]
          exact Or.inr (Or.inl ⟨h.2, rfl⟩)
        · simp only [if_neg h]
          exact Or.inl rfl
      simp only [apply_op, increment_usage]
      split
      · split
        · split
          · simp only [promote_view]
            refine ⟨_, List.mem_map_of_mem _ hbump_mem, ?_, fun _ => ?_⟩
            · rw [hprom_name, hbump_name]
            · exact allowed_transition_trans (Or.inl (hbump_status r).symm) (hprom_allowed _)
          · exact ⟨_, hbump_mem, hbump_name r, fun _ => Or.inl (hbump_status r).symm⟩
        · exact ⟨_, hbump_mem, hbump_name r, fun _ => Or.inl (hbump_status r).symm⟩
      · exact ⟨_, hbump_mem, hbump_name r, fun _ => Or.inl (hbump_status r).symm⟩

/-- C7 (amended): sequences of register/increment/promote/archive only
produce DRAFT→PROMOTED or anything→ARCHIVED status changes, and no
catalog operation (update_view included) ever removes a record. -/
theorem catalog_ops_lifecycle :
    ∀ (c : Catalog) (ops : List CatalogOp),
      (∀ r ∈ c, ∃ r' ∈ apply_ops c ops, r'.view_name = r.view_name) ∧
      ((∀ op ∈ ops, is_update_op op = false) →
        ∀ r ∈ c, ∃ r' ∈ apply_ops c ops, r'.view_name = r.view_name ∧
          allowed_transition r.status r'.status) := by
  intro c ops
  induction ops generalizing c with
  | nil =>
      exact ⟨fun r hr => ⟨r, hr, rfl⟩,
             fun _ r hr => ⟨r, hr, rfl, allowed_transition_refl r.status⟩⟩
  | cons op rest ih =>
      constructor
      · intro r hr
        obtain ⟨r1, h1mem, h1name, _⟩ := apply_op_preserves c op r hr
        obtain ⟨r2, h2mem, h2name⟩ := (ih (apply_op c op)).1 r1 h1mem
        exact ⟨r2, h2mem, h2name.trans h1name⟩
      · intro hall r hr
        obtain ⟨r1, h1mem, h1name, h1st⟩ := apply_op_preserves c op r hr
        obtain ⟨r2, h2mem, h2name, h2st⟩ :=
          (ih (apply_op c op)).2 (fun o ho => hall o (List.mem_cons_of_mem _ ho)) r1 h1mem
        exact ⟨r2, h2mem, h2name.trans h1name,
               allowed_transition_trans (h1st (hall op (List.mem_cons_self _ _))) h2st⟩

/-- Counterexample for C7 as stated: the update operation, which the
claim lists among the catalog operations, moves a DRAFT record to
MATERIALIZED — a transition outside DRAFT→PROMOTED and →ARCHIVED. -/
theorem catalog_ops_lifecycle_counterexample :
    find_by_name (apply_ops [recP] [CatalogOp.updateOp "v_p"
        { status := some ViewStatus.MATERIALIZED }]) "v_p"
      = some { recP with status := ViewStatus.MATERIALIZED } ∧
    recP.status = ViewStatus.DRAFT ∧
    ¬ allowed_transition ViewStatus.DRAFT ViewStatus.MATERIALIZED := by
  exact ⟨by decide, by decide, by decide⟩

/-- Witness for C7 (amended): archiving the concrete DRAFT record
`recP` keeps it in the catalog with an allowed transition. -/
theorem catalog_ops_lifecycle_witness :
    (apply_ops [recP] [CatalogOp.archiveOp "v_p"]).any
      (fun x => decide (x.view_name = recP.view_name) &&
        decide (allowed_transition recP.status x.status)) = true := by
  obtain ⟨r', hmem, hname, hst⟩ :=
    (catalog_ops_lifecycle [recP] [CatalogOp.archiveOp "v_p"]).2 (by decide) recP (by decide)
  exact List.any_eq_true.mpr ⟨r', hmem, by simp [hname, hst]⟩

theorem ins_sorted_perm (le : ViewRec → ViewRec → Bool) (x : ViewRec) (l : List ViewRec) :
    (ins_sorted le x l).Perm (x :: l) := by
  induction l with
  | nil => exact List.Perm.refl _
  | cons y ys ih =>
      unfold ins_sorted
      by_cases h : le x y = true
      · rw [if_pos h]
      · rw [if_neg h]
        exact (List.Perm.cons y ih).trans (List.Perm.swap x y ys)

theorem sort_by_perm (le : ViewRec → ViewRec → Bool) (l : List ViewRec) :
    (sort_by le l).Perm l := by
  induction l with
  | nil => exact List.Perm.refl _
  | cons x xs ih =>
      unfold sort_by
      exact (ins_sorted_perm le x (sort_by le xs)).trans (List.Perm.cons x ih)

theorem ins_sorted_pairwise (le : ViewRec → ViewRec → Bool)
    (htot : ∀ a b, le a b = true ∨ le b a = true)
    (htrans : ∀ a b c, le a b = true → le b c = true → le a c = true)
    (x : ViewRec) (l : List ViewRec) (hl : l.Pairwise (fun a b => le a b = true)) :
    (ins_sorted le x l).Pairwise (fun a b => le a b = true) := by
  induction l with
  | nil => simp [ins_sorted]
  | cons y ys ih =>
      rw [List.pairwise_cons] at hl
      unfold ins_sorted
      by_cases h : le x y = true
      · rw [if_pos h]
        refine List.pairwise_cons.mpr ⟨?_, List.pairwise_cons.mpr hl⟩
        intro z hz
        rcases List.mem_cons.mp hz with rfl | hz'
        · exact h
        · exact htrans x y z h (hl.1 z hz')
      · rw [if_neg h]
        refine List.pairwise_cons.mpr ⟨?_, ih hl.2⟩
        intro z hz
        have hz2 := (ins_sorted_perm le x ys).mem_iff.mp hz
        rcases List.mem_cons.mp hz2 with rfl | hz'
        · rcases htot y z with ht | ht
          · exact ht
          · exact absurd ht h
        · exact hl.1 z hz'

theorem sort_by_pairwise (le : ViewRec → ViewRec → Bool)
    (htot : ∀ a b, le a b = true ∨ le b a = true)
    (htrans : ∀ a b c, le a b = true → le b c = true → le a c = true)
    (l : List ViewRec) :
    (sort_by le l).Pairwise (fun a b => le a b = true) := by
  induction l with
  | nil => simp [sort_by]
  | cons x xs ih =>
      unfold sort_by
      exact ins_sorted_pairwise le htot htrans x (sort_by le xs) ih

/-- C8 (amended): find_by_domain returns exactly the records whose
domain matches, ordered by usage_count descending; records with equal
usage_count stay in table order (the SQL has no recency tie-break). -/
theorem find_by_domain_exact_sorted :
    ∀ (c : Catalog) (d : String),
      (find_by_domain c d).Perm (c.filter (fun r => r.domain = d)) ∧
      (find_by_domain c d).Pairwise (fun a b => b.usage_count ≤ a.usage_count) := by
  intro c d
  constructor
  · exact sort_by_perm usage_desc _
  · have h := sort_by_pairwise usage_desc
      (fun a b => by
        unfold usage_desc
        rcases Nat.le_total b.usage_count a.usage_count with h | h
        · exact Or.inl (by simpa using h)
        · exact Or.inr (by simpa using h))
      (fun a b c hab hbc => by
        unfold usage_desc at hab hbc ⊢
        simp only [decide_eq_true_eq] at hab hbc ⊢
        omega)
      (c.filter (fun r => r.domain = d))
    exact h.imp (fun hab => by simpa [usage_desc] using hab)

/-- Counterexample for C8 as stated: two fraud views with equal
usage_count come back in table order (`recA` first), not newest-first,
because `find_by_domain`'s SQL orders by usage_count only. -/
theorem find_by_domain_tie_counterexample :
    find_by_domain [recA, recB] "fraud" = [recA, recB] ∧
    recA.usage_count = recB.usage_count ∧
    recA.created_date = some 1 ∧ recB.created_date = some 2 := by
  exact ⟨by decide, by decide, by decide, by decide⟩

set_option maxRecDepth 8000 in
/-- Counterexample for C9 as stated: in the binary64 arithmetic the
source actually runs, `v = [1.0, 1.0]` has nonzero norm yet
`cosine_similarity v v` is `0.9999999999999998`
(= 4503599627370495/4503599627370496), not `1.0`: the norm is the
rounded `sqrt 2`, whose float square `fl_mul` rounds up to `2 + 2^-51`,
and the final `fl_div` of 2 by that rounds below 1. -/
theorem cosine_similarity_self_counterexample :
    np_norm [1, 1] ≠ 0 ∧
    cosine_similarity [1, 1] [1, 1] ≠ 1 ∧
    (cosine_similarity [1, 1] [1, 1]).num = 4503599627370495 ∧
    (cosine_similarity [1, 1] [1, 1]).den = 4503599627370496 := by
  with_unfolding_all decide

set_option maxRecDepth 8000 in
/-- C9 (amended): the zero-norm guard holds — whenever either computed
norm is zero, cosine_similarity returns 0 without performing the
division — but self-similarity of a nonzero vector is not always `1.0`:
for `v = [1.0, 1.0]` the returned value is
4503599627370495/4503599627370496 = 0.9999999999999998. -/
theorem cosine_similarity_float_behavior :
    (∀ a b : List ℚ, np_norm a = 0 ∨ np_norm b = 0 → cosine_similarity a b = 0) ∧
    (cosine_similarity [1, 1] [1, 1]).num = 4503599627370495 ∧
    (cosine_similarity [1, 1] [1, 1]).den = 4503599627370496 := by
  refine ⟨fun a b h => ?_, ?_, ?_⟩
  · simp only [cosine_similarity]
    rw [if_pos h]
  · with_unfolding_all decide
  · with_unfolding_all decide

/-- Witness for C9 (amended): the zero vector has zero computed norm
and pairs to similarity 0. -/
theorem cosine_similarity_float_behavior_witness :
    np_norm [0, 0] = 0 ∧ cosine_similarity [0, 0] [1, 1] = 0 := by
  constructor
  · with_unfolding_all decide
  · exact cosine_similarity_float_behavior.1 [0, 0] [1, 1]
      (Or.inl (by with_unfolding_all decide))

/-- C3 (amended): with an unknown table, calculate_join_cost returns
infinity and get_connected_tables returns the empty list (neither
raises); get_shortest_path raises the library's NodeNotFound, and
solve raises listing the missing terminals. -/
theorem unknown_table_behavior :
    (∀ (g : SchemaGraph) (t1 t2 : String), (¬ t1 ∈ g.nodes ∨ ¬ t2 ∈ g.nodes) →
        calculate_join_cost g t1 t2 = ⊤) ∧
    (∀ (g : SchemaGraph) (t : String) (d : Nat), ¬ t ∈ g.nodes →
        get_connected_tables g t d = []) ∧
    (∀ (g : SchemaGraph) (s t : String), ¬ (s ∈ g.nodes ∧ t ∈ g.nodes) →
        get_shortest_path g s t = Except.error "NodeNotFound") ∧
    (∀ (sg : SchemaGraph) (cat : Option Catalog) (ts : List String) (uv : Bool),
        (∃ t ∈ ts, ¬ t ∈ sg.nodes) →
        solve sg cat ts uv = Except.error (SolverErr.tablesNotInSchema
          (ts.filter (fun t => ¬ t ∈ sg.nodes)))) := by
  refine ⟨?_, ?_, ?_, ?_⟩
  · intro g t1 t2 h
    unfold calculate_join_cost
    rw [if_pos h]
  · intro g t d h
    unfold get_connected_tables
    rw [if_neg h]
  · intro g s t h
    unfold get_shortest_path
    rw [if_neg h]
  · intro sg cat ts uv h
    have hne : ts.filter (fun t => ¬ t ∈ sg.nodes) ≠ [] := by
      obtain ⟨t, ht, htn⟩ := h
      intro hnil
      have hmem : t ∈ ts.filter (fun t => ¬ t ∈ sg.nodes) :=
        List.mem_filter.mpr ⟨ht, by simpa using htn⟩
      rw [hnil] at hmem
      cases hmem
    simp only [solve]
    rw [if_neg hne]

/-- Witness for C3 (amended): the behaviour at the concrete graph
`sgC3` with the unknown table name `nope`. -/
theorem unknown_table_behavior_witness :
    calculate_join_cost sgC3 "a" "nope" = ⊤ ∧
    get_connected_tables sgC3 "nope" 1 = [] ∧
    get_shortest_path sgC3 "nope" "a" = Except.error "NodeNotFound" ∧
    solve sgC3 none ["a", "nope"] false = Except.error (SolverErr.tablesNotInSchema
      (["a", "nope"].filter (fun t => ¬ t ∈ sgC3.nodes))) := by
  refine ⟨?_, ?_, ?_, ?_⟩
  · exact unknown_table_behavior.1 sgC3 "a" "nope" (Or.inr (by decide))
  · exact unknown_table_behavior.2.1 sgC3 "nope" 1 (by decide)
  · exact unknown_table_behavior.2.2.1 sgC3 "nope" "a" (by decide)
  · exact unknown_table_behavior.2.2.2 sgC3 none ["a", "nope"] false ⟨"nope", by decide, by decide⟩

/-- Counterexample for C3 as stated: join_cost on an unknown table
returns the value infinity instead of raising, and connected_tables on
an unknown table returns the empty list instead of raising. -/
theorem unknown_table_returns_counterexample :
    calculate_join_cost sgC3 "zzz" "a" = ⊤ ∧
    get_connected_tables sgC3 "zzz" 2 = [] := by
  exact ⟨by decide, by decide⟩

/-- Counterexample for C1 as stated: on the hub-and-detour schema
`sgC1` with the promoted view `v_xy`, compare_solutions reports
cost_with = 3.87 strictly above cost_without = 3.01 — the approximate
solver routes two terminals through the view detour and loses the
edge sharing of the hub. -/
theorem compare_solutions_cost_counterexample :
    (compare_solutions sgC1 (some catC1) ["t1", "t2", "t3"]).map
        (fun r => (r.cost_without, r.cost_with)) = Except.ok (301/100, 387/100) ∧
    ¬ ((387 : ℚ)/100 ≤ 301/100) := by
  constructor
  · with_unfolding_all decide
  · with_unfolding_all decide

/-- Counterexample for C6 as stated: the promoted view `v_g` declares
the base table `ghost`, which is not a schema table, and the unified
graph contains the view node but no edge at all — the claimed
zero-weight edge to every base table is missing. -/
theorem build_unified_graph_missing_base_counterexample :
    (build_unified_graph sgC6 catC6).edges = [] ∧
    (build_unified_graph sgC6 catC6).nodes = ["t1", "v_g"] ∧
    find_by_name catC6 "v_g" = some { view_name := "v_g", layer := 1,
                                      domain := "fraud", base_tables := ["ghost"],
                                      status := ViewStatus.PROMOTED } ∧
    ¬ "ghost" ∈ sgC6.nodes := by
  exact ⟨by decide, by decide, by decide, by decide⟩

/-- Counterexample for C4 as stated: on `sgC4` the largest component is
the terminal-free five-table chain, so solve drops both terminals and
returns the empty result even though `b1` and `b2` share a (smaller)
component — the solver keys on component size, not on terminals
contained. -/
theorem solve_largest_component_counterexample :
    solve sgC4 none ["b1", "b2"] false = Except.ok empty_result ∧
    "b2" ∈ reach (to_undirected sgC4) "b1" ∧
    is_connected (to_undirected sgC4) = false := by
  exact ⟨by decide, by decide, by decide⟩

/-- C4 (amended): on a disconnected working graph, solve keeps exactly
the terminals inside the largest connected component by node count
(dropping the others), and returns the empty result (cost 0, no nodes)
when no terminal lies in it. -/
theorem solve_disconnected_restricts :
    ∀ (sg : SchemaGraph) (cat : Option Catalog) (ts : List String) (uv : Bool),
      (∀ t ∈ ts, t ∈ sg.nodes) → 2 ≤ ts.length →
      is_connected (working_graph sg cat uv) = false →
      ((∀ res, solve sg cat ts uv = Except.ok res →
          res.terminal_tables = ts.filter (fun t =>
            t ∈ (induced_subgraph (working_graph sg cat uv)
              (largest_component (connected_components (working_graph sg cat uv)))).nodes)) ∧
       (ts.filter (fun t =>
            t ∈ (induced_subgraph (working_graph sg cat uv)
              (largest_component (connected_components (working_graph sg cat uv)))).nodes) = [] →
          solve sg cat ts uv = Except.ok empty_result)) := by
  intro sg cat ts uv hall hlen hdisc
  have hmiss : ts.filter (fun t => ¬ t ∈ sg.nodes) = [] := by
    rw [List.filter_eq_nil_iff]
    intro a ha
    simpa using hall a ha
  match ts, hlen with
  | a :: b :: rest, _ =>
    have hsolve : solve sg cat (a :: b :: rest) uv =
        (match (a :: b :: rest).filter (fun t =>
            t ∈ (induced_subgraph (working_graph sg cat uv)
              (largest_component (connected_components (working_graph sg cat uv)))).nodes) with
         | [] => Except.ok empty_result
         | [t] => Except.ok (single_table_result t)
         | _ => Except.ok (analyze_solution
             (induced_subgraph (working_graph sg cat uv)
               (largest_component (connected_components (working_graph sg cat uv))))
             (steiner_tree_kou
               (induced_subgraph (working_graph sg cat uv)
                 (largest_component (connected_components (working_graph sg cat uv))))
               ((a :: b :: rest).filter (fun t =>
                 t ∈ (induced_subgraph (working_graph sg cat uv)
                   (largest_component (connected_components (working_graph sg cat uv)))).nodes)))
             ((a :: b :: rest).filter (fun t =>
               t ∈ (induced_subgraph (working_graph sg cat uv)
                 (largest_component (connected_components (working_graph sg cat uv)))).nodes))
             uv)) := by
      simp only [solve]
      rw [if_pos hmiss, hdisc]
      simp
    constructor
    · intro res hres
      rw [hsolve] at hres
      cases hvalid : (a :: b :: rest).filter (fun t =>
          t ∈ (induced_subgraph (working_graph sg cat uv)
            (largest_component (connected_components (working_graph sg cat uv)))).nodes) with
      | nil =>
          rw [hvalid] at hres
          simp only [Except.ok.injEq] at hres
          rw [← hres]
          simp [empty_result, hvalid]
      | cons v vs =>
          cases vs with
          | nil =>
              rw [hvalid] at hres
              simp only [Except.ok.injEq] at hres
              rw [← hres]
              simp [single_table_result, hvalid]
          | cons w ws =>
              rw [hvalid] at hres
              simp only [Except.ok.injEq] at hres
              rw [← hres]
              simp [analyze_solution, hvalid]
    · intro hnone
      rw [hsolve, hnone]

/-- Witness for C4 (amended): on the concrete disconnected graph
`sgC4` no terminal survives the restriction, so solve returns the
empty result. -/
theorem solve_disconnected_restricts_witness :
    solve sgC4 none ["b1", "b2"] false = Except.ok empty_result :=
  (solve_disconnected_restricts sgC4 none ["b1", "b2"] false (by decide) (by decide)
    (by decide)).2 (by decide)

theorem add_edge_nodes (g : UGraph) (a b : String) (w : ℚ) :
    (add_edge g a b w).nodes = g.nodes ∧ (add_edge g a b w).view_nodes = g.view_nodes := by
  unfold add_edge
  split <;> exact ⟨rfl, rfl⟩

theorem add_edge_fresh {g : UGraph} {a b : String} (w : ℚ)
    (h : ∀ e ∈ g.edges, ¬ same_pair a b e = true) :
    (add_edge g a b w).edges = g.edges ++ [{ u := a, v := b, weight := w }] := by
  unfold add_edge
  rw [if_neg]
  intro hc
  obtain ⟨e, he, hp⟩ := List.any_eq_true.mp hc
  exact h e he hp

theorem fold_base_tables (u : String) (ts : List String) (g : UGraph)
    (hnodup : ts.Nodup)
    (htu : ∀ t ∈ ts, t ≠ u)
    (hfresh : ∀ t ∈ ts, ∀ e ∈ g.edges, ¬ same_pair u t e = true) :
    (ts.foldl (fun h t => if t ∈ h.nodes then add_edge h u t 0 else h) g).edges
      = g.edges ++ (ts.filter (fun t => t ∈ g.nodes)).map
          (fun t => { u := u, v := t, weight := 0 })
    ∧ (ts.foldl (fun h t => if t ∈ h.nodes then add_edge h u t 0 else h) g).nodes = g.nodes
    ∧ (ts.foldl (fun h t => if t ∈ h.nodes then add_edge h u t 0 else h) g).view_nodes
        = g.view_nodes := by
  induction ts generalizing g with
  | nil => simp
  | cons t ts ih =>
      rw [List.nodup_cons] at hnodup
      simp only [List.foldl_cons]
      by_cases hmem : t ∈ g.nodes
      · rw [if_pos hmem]
        have hedges : (add_edge g u t 0).edges = g.edges ++ [{ u := u, v := t, weight := 0 }] :=
          add_edge_fresh 0 (hfresh t (List.mem_cons_self t ts))
        have hnv := add_edge_nodes g u t 0
        obtain ⟨ihe, ihn, ihv⟩ := ih (add_edge g u t 0) hnodup.2
          (fun t' ht' => htu t' (List.mem_cons_of_mem t ht'))
          (by
            intro t' ht' e he
            rw [hedges] at he
            rcases List.mem_append.mp he with he' | he'
            · exact hfresh t' (List.mem_cons_of_mem t ht') e he'
            · have he2 : e = { u := u, v := t, weight := 0 } := List.mem_singleton.mp he'
              subst he2
              simp only [same_pair]
              intro hc
              rcases of_decide_eq_true hc with ⟨_, h2⟩ | ⟨h1, _⟩
              · exact hnodup.1 (by rw [h2]; exact ht')
              · exact htu t' (List.mem_cons_of_mem t ht') h1.symm)
        rw [ihe, hedges, hnv.1, ihn, ihv]
        refine ⟨?_, hnv.1, hnv.2⟩
        rw [List.filter_cons_of_pos (by simpa using hmem), List.map_cons]
        simp [List.append_assoc]
      · rw [if_neg hmem]
        obtain ⟨ihe, ihn, ihv⟩ := ih g hnodup.2
          (fun t' ht' => htu t' (List.mem_cons_of_mem t ht'))
          (fun t' ht' => hfresh t' (List.mem_cons_of_mem t ht'))
        rw [ihe, ihn, ihv]
        refine ⟨?_, rfl, rfl⟩
        rw [List.filter_cons_of_neg (by simpa using hmem)]

theorem add_view_step (sg : SchemaGraph) (g : UGraph) (v : ViewRec) (names : List String)
    (hnodes : g.nodes = sg.nodes ++ names)
    (hviews : g.view_nodes = names)
    (hfresh_sg : ¬ v.view_name ∈ sg.nodes)
    (hfresh_names : ¬ v.view_name ∈ names)
    (hbase_nodup : v.base_tables.Nodup)
    (hbase : ∀ t ∈ v.base_tables, t ≠ v.view_name ∧ ¬ t ∈ names)
    (hends : ∀ e ∈ g.edges, (e.u ∈ sg.nodes ∧ e.v ∈ sg.nodes) ∨ (e.u ∈ names ∧ e.v ∈ sg.nodes)) :
    (add_view_to_graph g v).nodes = sg.nodes ++ (names ++ [v.view_name]) ∧
    (add_view_to_graph g v).view_nodes = names ++ [v.view_name] ∧
    (add_view_to_graph g v).edges = g.edges ++ view_block sg v ∧
    (∀ e ∈ (add_view_to_graph g v).edges,
      (e.u ∈ sg.nodes ∧ e.v ∈ sg.nodes) ∨ (e.u ∈ names ++ [v.view_name] ∧ e.v ∈ sg.nodes)) := by
  have hnot_nodes : ¬ v.view_name ∈ g.nodes := by
    rw [hnodes]
    intro hc
    rcases List.mem_append.mp hc with h | h
    · exact hfresh_sg h
    · exact hfresh_names h
  have hnot_views : ¬ v.view_name ∈ g.view_nodes := by
    rw [hviews]
    exact hfresh_names
  have hg1nodes : (add_view_node g v.view_name).nodes = g.nodes ++ [v.view_name] := by
    unfold add_view_node
    rw [if_neg hnot_nodes]
  have hg1views : (add_view_node g v.view_name).view_nodes = g.view_nodes ++ [v.view_name] := by
    unfold add_view_node
    rw [if_neg hnot_views]
  have hg1edges : (add_view_node g v.view_name).edges = g.edges := rfl
  obtain ⟨he, hn, hv2⟩ := fold_base_tables v.view_name v.base_tables (add_view_node g v.view_name)
    hbase_nodup
    (fun t ht => (hbase t ht).1)
    (by
      intro t ht e hee
      rw [hg1edges] at hee
      simp only [same_pair]
      intro hc
      rcases of_decide_eq_true hc with ⟨h1, _⟩ | ⟨_, h2⟩
      · rcases hends e hee with ⟨hu, _⟩ | ⟨hu, _⟩
        · exact hfresh_sg (h1 ▸ hu)
        · exact hfresh_names (h1 ▸ hu)
      · rcases hends e hee with ⟨_, hv3⟩ | ⟨_, hv3⟩
        · exact hfresh_sg (h2 ▸ hv3)
        · exact hfresh_sg (h2 ▸ hv3))
  unfold add_view_to_graph
  refine ⟨?_, ?_, ?_, ?_⟩
  · rw [hn, hg1nodes, hnodes, List.append_assoc]
  · rw [hv2, hg1views, hviews]
  · rw [he, hg1edges]
    congr 1
    unfold view_block
    congr 1
    apply List.filter_congr
    intro t ht
    rw [hg1nodes, hnodes]
    simp only [List.mem_append, List.mem_singleton]
    rw [decide_eq_decide]
    have h1 := (hbase t ht).1
    have h2 := (hbase t ht).2
    constructor
    · rintro ((h | h) | h)
      · exact h
      · exact absurd h h2
      · exact absurd h h1
    · intro h
      exact Or.inl (Or.inl h)
  · intro e hee
    rw [he, hg1edges] at hee
    rcases List.mem_append.mp hee with h | h
    · rcases hends e h with ⟨h1, h2⟩ | ⟨h1, h2⟩
      · exact Or.inl ⟨h1, h2⟩
      · exact Or.inr ⟨List.mem_append_left _ h1, h2⟩
    · obtain ⟨t, htf, rfl⟩ := List.mem_map.mp h
      have htf' := List.mem_filter.mp htf
      refine Or.inr ⟨List.mem_append_right _ (List.mem_singleton_self _), ?_⟩
      have ht2 : t ∈ (sg.nodes ++ names) ++ [v.view_name] := by
        have hd := of_decide_eq_true htf'.2
        rw [hg1nodes, hnodes] at hd
        exact hd
      rcases List.mem_append.mp ht2 with h3 | h3
      · rcases List.mem_append.mp h3 with h4 | h4
        · exact h4
        · exact absurd h4 (hbase t htf'.1).2
      · exact absurd (List.mem_singleton.mp h3) (hbase t htf'.1).1

theorem fold_views (sg : SchemaGraph) (vs : List ViewRec) :
    ∀ (g : UGraph) (names : List String),
      g.nodes = sg.nodes ++ names →
      g.view_nodes = names →
      (∀ e ∈ g.edges, (e.u ∈ sg.nodes ∧ e.v ∈ sg.nodes) ∨ (e.u ∈ names ∧ e.v ∈ sg.nodes)) →
      (names ++ vs.map (fun v => v.view_name)).Nodup →
      (∀ v ∈ vs, ¬ v.view_name ∈ sg.nodes) →
      (∀ v ∈ vs, v.base_tables.Nodup) →
      (∀ v ∈ vs, ∀ t ∈ v.base_tables, ¬ t ∈ names ++ vs.map (fun w => w.view_name)) →
      (vs.foldl add_view_to_graph g).nodes
          = sg.nodes ++ (names ++ vs.map (fun v => v.view_name)) ∧
      (vs.foldl add_view_to_graph g).view_nodes = names ++ vs.map (fun v => v.view_name) ∧
      (vs.foldl add_view_to_graph g).edges = g.edges ++ vs.flatMap (view_block sg) := by
  induction vs with
  | nil =>
      intro g names h1 h2 _ _ _ _ _
      simp [h1, h2]
  | cons v rest ih =>
      intro g names h1 h2 h3 h4 h5 h6 h7
      simp only [List.foldl_cons]
      have hnodup1 : ¬ v.view_name ∈ names := by
        intro hc
        exact List.disjoint_of_nodup_append h4 hc (by simp)
      have hbase : ∀ t ∈ v.base_tables, t ≠ v.view_name ∧ ¬ t ∈ names := by
        intro t ht
        have hb := h7 v (List.mem_cons_self v rest) t ht
        constructor
        · intro hteq
          apply hb
          rw [hteq]
          simp
        · intro htn
          exact hb (List.mem_append_left _ htn)
      obtain ⟨s1, s2, s3, s4⟩ := add_view_step sg g v names h1 h2
        (h5 v (List.mem_cons_self v rest)) hnodup1
        (h6 v (List.mem_cons_self v rest)) hbase h3
      obtain ⟨r1, r2, r3⟩ := ih (add_view_to_graph g v) (names ++ [v.view_name]) s1 s2 s4
        (by
          rw [List.append_assoc, List.singleton_append]
          simpa using h4)
        (fun w hw => h5 w (List.mem_cons_of_mem v hw))
        (fun w hw => h6 w (List.mem_cons_of_mem v hw))
        (by
          intro w hw t ht
          rw [List.append_assoc, List.singleton_append]
          have := h7 w (List.mem_cons_of_mem v hw) t ht
          simpa using this)
      refine ⟨?_, ?_, ?_⟩
      · rw [r1, List.append_assoc, List.singleton_append]
        simp
      · rw [r2, List.append_assoc, List.singleton_append]
        simp
      · rw [r3, s3, List.append_assoc]
        simp

theorem mem_sort_by {le : ViewRec → ViewRec → Bool} {l : List ViewRec} {x : ViewRec} :
    x ∈ sort_by le l ↔ x ∈ l :=
  (sort_by_perm le l).mem_iff

theorem mem_get_all_views_status {c : Catalog} {s : ViewStatus} {v : ViewRec} :
    v ∈ get_all_views c none (some s) ↔ v ∈ c ∧ v.status = s := by
  unfold get_all_views
  rw [mem_sort_by]
  simp [List.mem_filter]

theorem mem_views_for_unified {c : Catalog} {v : ViewRec} :
    v ∈ views_for_unified c ↔
      v ∈ c ∧ (v.status = ViewStatus.PROMOTED ∨ v.status = ViewStatus.MATERIALIZED) := by
  unfold views_for_unified
  rw [List.mem_append, mem_get_all_views_status, mem_get_all_views_status]
  tauto

theorem get_all_views_status_names_nodup {c : Catalog} {s : ViewStatus}
    (hN : (c.map (fun v => v.view_name)).Nodup) :
    ((get_all_views c none (some s)).map (fun v => v.view_name)).Nodup := by
  unfold get_all_views
  have hperm := (sort_by_perm usage_created_desc
    (c.filter (fun r =>
      (match (none : Option Nat) with | some l => decide (r.layer = l) | none => true) &&
      (match (some s : Option ViewStatus) with
       | some s => decide (r.status = s) | none => true)))).map (fun v => v.view_name)
  rw [List.Perm.nodup_iff hperm]
  exact List.Nodup.sublist (List.Sublist.map _ (List.filter_sublist c)) hN

theorem views_for_unified_names_nodup {c : Catalog}
    (hN : (c.map (fun v => v.view_name)).Nodup) :
    ((views_for_unified c).map (fun v => v.view_name)).Nodup := by
  unfold views_for_unified
  rw [List.map_append]
  refine List.Nodup.append (get_all_views_status_names_nodup hN)
    (get_all_views_status_names_nodup hN) ?_
  intro a haP haM
  obtain ⟨v1, hv1, hv1n⟩ := List.mem_map.mp haP
  obtain ⟨v2, hv2, hv2n⟩ := List.mem_map.mp haM
  have h1 := mem_get_all_views_status.mp hv1
  have h2 := mem_get_all_views_status.mp hv2
  have hv12 : v1 = v2 := List.inj_on_of_nodup_map hN h1.1 h2.1 (by rw [hv1n, hv2n])
  rw [hv12] at h1
  exact ViewStatus.noConfusion (h1.2.symm.trans h2.2)

theorem build_unified_graph_spec (sg : SchemaGraph) (c : Catalog) (hwf : WellFormedSetup sg c) :
    (build_unified_graph sg c).nodes
      = sg.nodes ++ (views_for_unified c).map (fun v => v.view_name) ∧
    (build_unified_graph sg c).view_nodes = (views_for_unified c).map (fun v => v.view_name) ∧
    (build_unified_graph sg c).edges
      = (to_undirected sg).edges ++ (views_for_unified c).flatMap (view_block sg) := by
  obtain ⟨hA, hB, hC, hD, hE⟩ := hwf
  obtain ⟨h1, h2, h3⟩ := fold_views sg (views_for_unified c) (to_undirected sg) []
    (by simp [to_undirected])
    (by simp [to_undirected])
    (by
      intro e he
      simp only [to_undirected, List.mem_map] at he
      obtain ⟨d, hd, rfl⟩ := he
      exact Or.inl ⟨(hA d hd).1, (hA d hd).2⟩)
    (by simpa using views_for_unified_names_nodup hC)
    (fun v hv => hB v (mem_views_for_unified.mp hv).1)
    (fun v hv => hE v (mem_views_for_unified.mp hv).1)
    (by
      intro v hv t ht
      simp only [List.nil_append]
      intro hc
      obtain ⟨w, hw, hwn⟩ := List.mem_map.mp hc
      have hwc := (mem_views_for_unified.mp hw).1
      exact hD v (mem_views_for_unified.mp hv).1 t ht
        (by rw [← hwn]; exact List.mem_map_of_mem _ hwc))
  unfold build_unified_graph
  rw [h1, h2, h3]
  simp

/-- C6 (amended): for a well-formed schema/catalog pair, the unified
graph is exactly the undirected schema projection plus one node per
PROMOTED or MATERIALIZED view (no other status contributes a node),
with a zero-weight edge from each such view to each of its base tables
that is present in the schema graph. -/
theorem build_unified_graph_content :
    ∀ (sg : SchemaGraph) (c : Catalog), WellFormedSetup sg c →
      (∀ n, n ∈ (build_unified_graph sg c).nodes ↔
        n ∈ sg.nodes ∨ ∃ v ∈ c,
          (v.status = ViewStatus.PROMOTED ∨ v.status = ViewStatus.MATERIALIZED) ∧
          v.view_name = n) ∧
      (∀ e, e ∈ (build_unified_graph sg c).edges ↔
        e ∈ (to_undirected sg).edges ∨ ∃ v ∈ c,
          (v.status = ViewStatus.PROMOTED ∨ v.status = ViewStatus.MATERIALIZED) ∧
          ∃ t ∈ v.base_tables, t ∈ sg.nodes ∧
            e = { u := v.view_name, v := t, weight := 0 }) := by
  intro sg c hwf
  obtain ⟨h1, _, h3⟩ := build_unified_graph_spec sg c hwf
  constructor
  · intro n
    rw [h1]
    simp only [List.mem_append, List.mem_map]
    constructor
    · rintro (h | ⟨v, hv, rfl⟩)
      · exact Or.inl h
      · have hm := mem_views_for_unified.mp hv
        exact Or.inr ⟨v, hm.1, hm.2, rfl⟩
    · rintro (h | ⟨v, hv, hst, rfl⟩)
      · exact Or.inl h
      · exact Or.inr ⟨v, mem_views_for_unified.mpr ⟨hv, hst⟩, rfl⟩
  · intro e
    rw [h3]
    simp only [List.mem_append, List.mem_flatMap]
    constructor
    · rintro (h | ⟨v, hv, he⟩)
      · exact Or.inl h
      · have hm := mem_views_for_unified.mp hv
        unfold view_block at he
        obtain ⟨t, htf, rfl⟩ := List.mem_map.mp he
        have ht := List.mem_filter.mp htf
        exact Or.inr ⟨v, hm.1, hm.2, t, ht.1, by simpa using ht.2, rfl⟩
    · rintro (h | ⟨v, hv, hst, t, ht, htn, rfl⟩)
      · exact Or.inl h
      · refine Or.inr ⟨v, mem_views_for_unified.mpr ⟨hv, hst⟩, ?_⟩
        unfold view_block
        exact List.mem_map_of_mem _ (List.mem_filter.mpr ⟨ht, by simpa using htn⟩)

/-- Witness for C6 (amended): in the concrete setup `sgC6`/`catC6` the
promoted view `v_g` is a node of the unified graph. -/
theorem build_unified_graph_content_witness :
    "v_g" ∈ (build_unified_graph sgC6 catC6).nodes := by
  refine ((build_unified_graph_content sgC6 catC6 (by decide)).1 "v_g").mpr ?_
  refine Or.inr ⟨{ view_name := "v_g", layer := 1, domain := "fraud",
                   base_tables := ["ghost"], status := ViewStatus.PROMOTED },
                 by decide, Or.inl (by decide), by decide⟩

theorem foldr_min_le {l : List (WithTop ℚ)} {x : WithTop ℚ} (hx : x ∈ l) :
    l.foldr min ⊤ ≤ x := by
  induction l with
  | nil => cases hx
  | cons a as ih =>
      rcases List.mem_cons.mp hx with rfl | h
      · exact min_le_left _ _
      · exact le_trans (min_le_right _ _) (ih h)

theorem foldr_min_top_or_mem (l : List (WithTop ℚ)) :
    l.foldr min ⊤ = ⊤ ∨ l.foldr min ⊤ ∈ l := by
  induction l with
  | nil => exact Or.inl rfl
  | cons a as ih =>
      simp only [List.foldr_cons]
      rcases ih with h | h
      · rw [h, min_eq_left le_top]
        exact Or.inr (List.mem_cons_self _ _)
      · rcases min_choice a (as.foldr min ⊤) with hc | hc
        · rw [hc]
          exact Or.inr (List.mem_cons_self _ _)
        · rw [hc]
          exact Or.inr (List.mem_cons_of_mem _ h)

theorem st_conn_cost_append (A B : List UEdge) (ts : List String) :
    st_conn_cost (A ++ B) ts ≤ st_conn_cost A ts := by
  rcases foldr_min_top_or_mem ((A.sublists.filter (fun s => spans s ts)).map
      (fun s => ((edges_cost s : ℚ) : WithTop ℚ))) with h | h
  · unfold st_conn_cost
    rw [h]
    exact le_top
  · obtain ⟨S, hSfilter, hScost⟩ := List.mem_map.mp h
    have hSmem := List.mem_filter.mp hSfilter
    have hSsub : S.Sublist A := List.mem_sublists.mp hSmem.1
    have hSsub2 : S ∈ (A ++ B).sublists :=
      List.mem_sublists.mpr (hSsub.trans (List.sublist_append_left A B))
    have hmem2 : ((edges_cost S : ℚ) : WithTop ℚ)
        ∈ ((A ++ B).sublists.filter (fun s => spans s ts)).map
            (fun s => ((edges_cost s : ℚ) : WithTop ℚ)) :=
      List.mem_map_of_mem _ (List.mem_filter.mpr ⟨hSsub2, hSmem.2⟩)
    unfold st_conn_cost
    exact le_of_le_of_eq (foldr_min_le hmem2) hScost

/-- C1 (amended): what the zero-weight-shortcut argument does
guarantee is about the exact optima, not the approximation's output:
for a well-formed setup, the least cost of connecting any terminal set
inside the unified graph never exceeds the least cost inside the raw
schema graph, because the unified edge set extends the schema edge set
with zero-weight view edges and removes nothing.  (The approximate
solver's reported cost_with can exceed cost_without, as the
counterexample shows.) -/
theorem st_conn_cost_view_shortcut :
    ∀ (sg : SchemaGraph) (c : Catalog), WellFormedSetup sg c →
      ∀ ts, st_conn_cost (build_unified_graph sg c).edges ts
        ≤ st_conn_cost (to_undirected sg).edges ts := by
  intro sg c hwf ts
  obtain ⟨_, _, hedges⟩ := build_unified_graph_spec sg c hwf
  rw [hedges]
  exact st_conn_cost_append _ _ ts

/-- Witness for C1 (amended): the optimal connection cost of the
counterexample's terminals in the unified graph is at most the one in
the raw schema graph. -/
theorem st_conn_cost_view_shortcut_witness :
    st_conn_cost (build_unified_graph sgC1 catC1).edges ["t1", "t3"]
      ≤ st_conn_cost (to_undirected sgC1).edges ["t1", "t3"] :=
  st_conn_cost_view_shortcut sgC1 catC1 (by decide) ["t1", "t3"]
